import Mathlib

/-!
Shallow embedding of the RSA key-management core (src/key.rs and
src/algorithms/generate.rs) of the repository.

Modelling conventions:
* `BoxedUint` values are modelled as natural numbers together with an explicit
  bit precision carried by the containing structure; wrapping arithmetic is
  `% 2 ^ prec`.
* Fallible operations return `Outcome`/`VResult`; a Rust `panic` / failed
  `unwrap` is the `abort` constructor.
* `BoxedResidueParams::new(..).unwrap()` (a modular-reduction context, an
  external primitive the spec assumes total) is modelled as always succeeding;
  the residue inverse `BoxedResidue::invert` succeeds exactly when the value is
  invertible modulo the context modulus, i.e. when the gcd is 1.
-/

namespace RsaCore

/-- Error taxonomy of the library (spec section 7; the variants used in
src/key.rs and src/algorithms/generate.rs). -/
inductive Error where
  | NprimesTooSmall
  | TooFewPrimes
  | InvalidPrime
  | InvalidModulus
  | InvalidExponent
  | ModulusTooLarge
  | PublicExponentTooSmall
  | PublicExponentTooLarge
deriving DecidableEq

/-- Result of a unit-returning fallible Rust operation; `abort` models a panic
(failed `unwrap` / division by zero). -/
inductive VResult where
  | ok
  | err (e : Error)
  | abort
deriving DecidableEq

/-- Result of a value-returning fallible Rust operation; `abort` models a
panic. -/
inductive Outcome (α : Type) where
  | ok (a : α) : Outcome α
  | err (e : Error) : Outcome α
  | abort : Outcome α
deriving DecidableEq

/-- Fuel-driven helper for the bit length of a natural number; the fuel is
always instantiated with the number itself, which bounds the recursion depth.
-/
def bitlenAux : ℕ → ℕ → ℕ
  | 0, _ => 0
  | f + 1, n => if n = 0 then 0 else bitlenAux f (n / 2) + 1

/-- Bit length of a natural number (`BigUint::bits` / `BoxedUint::bits`):
0 for 0, otherwise the position of the highest set bit plus one. -/
def bitlen (n : ℕ) : ℕ := bitlenAux n n

/-- Modular inverse by exhaustive search: the least `x < n` with
`a * x % n = 1`, or 0 when none exists.  Executable stand-in for the
bignum engine's modular inversion. -/
def modInv (a n : ℕ) : ℕ :=
  ((List.range n).filter fun x => a * x % n == 1).headD 0

/-- Model of `PrecomputedValues` (src/key.rs lines 107-118): CRT acceleration data.
The two `BoxedResidueParams` fields are reduction contexts with no
mathematical content beyond their moduli and are not carried here. -/
structure PrecomputedValues where
  dp : ℕ
  dq : ℕ
  qinv : ℕ
deriving DecidableEq

/-- Model of `RsaPrivateKey` (src/key.rs lines 61-71), with its embedded public part
inlined: shared bit precision `prec` of `n`, `d` and the primes, the modulus
`n`, the `u64` public exponent `e`, the private exponent `d`, the prime list,
and the optional precomputation cache. -/
structure RsaPrivateKey where
  prec : ℕ
  n : ℕ
  e : ℕ
  d : ℕ
  primes : List ℕ
  precomputed : Option PrecomputedValues
deriving DecidableEq

/-- Model of `RsaPublicKey` (src/key.rs lines 28-39): modulus precision, modulus value
and `u64` exponent. -/
structure RsaPublicKeyM where
  prec : ℕ
  n : ℕ
  e : ℕ
deriving DecidableEq

/-- Decidable equality for `Except`, used to evaluate closed statements about
the fallible constructors. -/
instance {ε α : Type} [DecidableEq ε] [DecidableEq α] :
    DecidableEq (Except ε α) := fun x y =>
  match x, y with
  | Except.ok a, Except.ok b =>
    if h : a = b then isTrue (by rw [h])
    else isFalse (by intro hh; cases hh; exact h rfl)
  | Except.error a, Except.error b =>
    if h : a = b then isTrue (by rw [h])
    else isFalse (by intro hh; cases hh; exact h rfl)
  | Except.ok _, Except.error _ => isFalse (by intro h; cases h)
  | Except.error _, Except.ok _ => isFalse (by intro h; cases h)

/-- Model of `check_public_with_max_size` (src/key.rs lines 598-622), operating on the
unbounded `BigUint` inputs.  Returns `none` on success and the first violated
invariant's error otherwise, in the order the source checks them. -/
def checkPublicWithMaxSize (n e maxSize : ℕ) : Option Error :=
  if maxSize < bitlen n then some Error.ModulusTooLarge
  else if 2 ^ 64 ≤ e then some Error.PublicExponentTooLarge
  else if n ≤ e ∨ n % 2 = 0 then some Error.InvalidModulus
  else if e % 2 = 0 then some Error.InvalidExponent
  else if e < 2 then some Error.PublicExponentTooSmall
  else if 2 ^ 33 - 1 < e then some Error.PublicExponentTooLarge
  else none

/-- The product loop of `RsaPrivateKey::validate` (src/key.rs lines 482-489):
fold the primes into the accumulator with wrapping multiplication at
precision `prec`, rejecting any prime strictly below one with
`InvalidPrime`. -/
def productCheck (prec : ℕ) : List ℕ → ℕ → Except Error ℕ
  | [], m => Except.ok m
  | p :: ps, m =>
    if p < 1 then Except.error Error.InvalidPrime
    else productCheck prec ps (m * p % 2 ^ prec)

/-- The congruence loop of `RsaPrivateKey::validate` (src/key.rs lines
502-509): for each prime, `p.wrapping_sub(1)` at the widened precision
`wprec`; a zero result makes `NonZero::new(..).unwrap()` panic, otherwise the
residue of `de` modulo it must be one. -/
def congruenceCheck (de wprec : ℕ) : List ℕ → VResult
  | [] => VResult.ok
  | p :: ps =>
    if (p + (2 ^ wprec - 1)) % 2 ^ wprec = 0 then VResult.abort
    else if de % ((p + (2 ^ wprec - 1)) % 2 ^ wprec) = 1 then
      congruenceCheck de wprec ps
    else VResult.err Error.InvalidExponent

/-- Model of `RsaPrivateKey::validate` (src/key.rs lines 478-512): public-key checks,
then the wrapping product compared against `n`, then the per-prime congruence
`d·e ≡ 1 (mod p−1)` with `d` widened to double precision before the
multiplication. -/
def validate (k : RsaPrivateKey) : VResult :=
  match checkPublicWithMaxSize k.n k.e 4096 with
  | some er => VResult.err er
  | none =>
    match productCheck k.prec k.primes (1 % 2 ^ k.prec) with
    | Except.error er => VResult.err er
    | Except.ok m =>
      if m = k.n then
        congruenceCheck (k.d * k.e % 2 ^ (2 * k.prec)) (2 * k.prec) k.primes
      else VResult.err Error.InvalidModulus

/-- Model of `RsaPrivateKey::precompute` (src/key.rs lines 427-461).  Returns the
operation status together with the post-state of the key.  Accessing
`primes[0]`/`primes[1]` on a short list panics; `p.wrapping_sub(1)` equal to
zero makes the `NonZero` unwrap panic; the residue inverse of `q` modulo `p`
fails with `InvalidPrime` when `q` is not invertible modulo `p`. -/
def precompute (k : RsaPrivateKey) : VResult × RsaPrivateKey :=
  if k.precomputed.isSome then (VResult.ok, k)
  else
    match k.primes with
    | p :: q :: _ =>
      if (p + (2 ^ k.prec - 1)) % 2 ^ k.prec = 0 then (VResult.abort, k)
      else if (q + (2 ^ k.prec - 1)) % 2 ^ k.prec = 0 then (VResult.abort, k)
      else if Nat.gcd q p = 1 then
        (VResult.ok,
          { k with
            precomputed := some
              ⟨k.d % ((p + (2 ^ k.prec - 1)) % 2 ^ k.prec),
               k.d % ((q + (2 ^ k.prec - 1)) % 2 ^ k.prec),
               modInv (q % p) p⟩ })
      else (VResult.err Error.InvalidPrime, k)
    | _ => (VResult.abort, k)

/-- Minimal big-endian byte length of a value (`BigUint::to_bytes_be`):
one byte for zero, otherwise `ceil(bits/8)`. -/
def beLen (v : ℕ) : ℕ := if v = 0 then 1 else (bitlen v + 7) / 8

/-- Precision assigned by `inner_to_uint` (src/key.rs lines 638-647): the
big-endian byte string padded to a multiple of `Limb::BYTES = 8`, times 8
bits. -/
def innerPrec (v : ℕ) : ℕ :=
  (beLen v + (if beLen v % 8 = 0 then 0 else 8 - beLen v % 8)) * 8

/-- Model of `needed_bits` (src/key.rs lines 235-259): the precision ladder. -/
def neededBits (n : ℕ) : ℕ :=
  if bitlen n ≤ 64 then 64
  else if bitlen n ≤ 128 then 128
  else if bitlen n ≤ 256 then 256
  else if bitlen n ≤ 512 then 512
  else if bitlen n ≤ 1024 then 1024
  else if bitlen n ≤ 2048 then 2048
  else if bitlen n ≤ 4096 then 4096
  else if bitlen n ≤ 8192 then 8192
  else 16384

/-- Precision of `to_uint` (src/key.rs lines 649-656): the natural precision
of the value, widened to the ladder value when below it. -/
def toUintPrec (n : ℕ) : ℕ :=
  if innerPrec n < neededBits n then neededBits n else innerPrec n

/-- Model of `to_uint_exact` (src/key.rs lines 628-636): succeeds (widening if needed)
when the value's natural precision is at most `nbits`, and panics when the
value occupies more precision than `nbits`. -/
def toUintExact (v nbits : ℕ) : Outcome ℕ :=
  if nbits < innerPrec v then Outcome.abort else Outcome.ok v

/-- The `primes.into_iter().map(|p| to_uint_exact(p, nbits)).collect()` step of
`RsaPrivateKey::from_components` (src/key.rs lines 321-324): converting each
prime, propagating the panic of the first oversized one. -/
def convertList (nbits : ℕ) : List ℕ → Outcome (List ℕ)
  | [] => Outcome.ok []
  | v :: vs =>
    match toUintExact v nbits with
    | Outcome.ok v' =>
      match convertList nbits vs with
      | Outcome.ok vs' => Outcome.ok (v' :: vs')
      | Outcome.err er => Outcome.err er
      | Outcome.abort => Outcome.abort
    | _ => Outcome.abort

/-- The tail of `RsaPrivateKey::from_components_new` (src/key.rs lines
372-375): `let _ = k.precompute();` — a typed precompute error is discarded,
a panic propagates. -/
def finishPrecompute (k : RsaPrivateKey) : Outcome RsaPrivateKey :=
  match precompute k with
  | (VResult.abort, _) => Outcome.abort
  | (_, k') => Outcome.ok k'

/-- Model of `RsaPrivateKey::from_components_new` (src/key.rs lines 328-376),
parametrised by the two-prime factor recovery routine `recover` (defined in
src/algorithms/rsa.rs, outside the given sources).  `NonZero::new(n).unwrap()`
panics on a zero modulus.  An empty prime list triggers recovery followed by a
mandatory `validate`; a single prime is `NprimesTooSmall`; two or more primes
are accepted as supplied.  Finally `precompute` runs and its typed error is
discarded. -/
def fromComponentsNew (recover : ℕ → ℕ → ℕ → Except Error (ℕ × ℕ))
    (prec n e d : ℕ) (primes : List ℕ) : Outcome RsaPrivateKey :=
  if n = 0 then Outcome.abort
  else
    match primes with
    | [] =>
      match recover n e d with
      | Except.error er => Outcome.err er
      | Except.ok (p, q) =>
        match toUintExact p prec, toUintExact q prec with
        | Outcome.ok p', Outcome.ok q' =>
          match validate ⟨prec, n, e, d, [p', q'], none⟩ with
          | VResult.err er => Outcome.err er
          | VResult.abort => Outcome.abort
          | VResult.ok => finishPrecompute ⟨prec, n, e, d, [p', q'], none⟩
        | _, _ => Outcome.abort
    | [_] => Outcome.err Error.NprimesTooSmall
    | _ => finishPrecompute ⟨prec, n, e, d, primes, none⟩

/-- Model of `RsaPrivateKey::from_components` (src/key.rs lines 311-326): the modulus is
converted with `to_uint` (total), the exponent must fit in 64 bits (else
`InvalidExponent`), then `d` and the primes are converted with the panicking
`to_uint_exact` at the modulus precision. -/
def fromComponents (recover : ℕ → ℕ → ℕ → Except Error (ℕ × ℕ))
    (n e d : ℕ) (primes : List ℕ) : Outcome RsaPrivateKey :=
  if 2 ^ 64 ≤ e then Outcome.err Error.InvalidExponent
  else
    match toUintExact d (toUintPrec n) with
    | Outcome.ok d' =>
      match convertList (toUintPrec n) primes with
      | Outcome.ok ps' => fromComponentsNew recover (toUintPrec n) n e d' ps'
      | _ => Outcome.abort
    | _ => Outcome.abort

/-- Model of `RsaPublicKey::new_with_max_size` (src/key.rs lines 207-218). -/
def newWithMaxSize (n e maxSize : ℕ) : Except Error RsaPublicKeyM :=
  match checkPublicWithMaxSize n e maxSize with
  | some er => Except.error er
  | none => Except.ok ⟨toUintPrec n, n, e⟩

/-- Model of `RsaPublicKey::new` (src/key.rs lines 202-204): `new_with_max_size` with
`MAX_SIZE = 4096`. -/
def rsaPublicKeyNew (n e : ℕ) : Except Error RsaPublicKeyM :=
  newWithMaxSize n e 4096

/-- A concrete recovery routine that always fails; used to instantiate
`fromComponentsNew` in closed statements whose prime list is nonempty, where
recovery is never invoked. -/
def noRecover : ℕ → ℕ → ℕ → Except Error (ℕ × ℕ) :=
  fun _ _ _ => Except.error Error.InvalidPrime

/-- A concrete recovery routine returning the factors 3 and 5; used to
instantiate `fromComponentsNew` in closed statements. -/
def okRecover : ℕ → ℕ → ℕ → Except Error (ℕ × ℕ) :=
  fun _ _ _ => Except.ok (3, 5)

/-- Transient generator output `RsaPrivateKeyComponents`
(src/algorithms/generate.rs lines 16-21). -/
structure RsaPrivateKeyComponents where
  n : ℕ
  e : ℕ
  d : ℕ
  primes : List ℕ
deriving DecidableEq

/-- The extra bits added to the budget for many primes
(src/algorithms/generate.rs lines 77-79). -/
def extraBits (nprimes : ℕ) : ℕ :=
  if 7 ≤ nprimes then (nprimes - 2) / 5 else 0

/-- The drawing loop of one generation round (src/algorithms/generate.rs lines
81-85), parametrised by the prime candidate source `S` (round, index,
requested bits ↦ drawn value).  The structural fuel `r` is the number of
remaining slots, starting at `nprimes`. -/
def drawPrimesAux (S : ℕ → ℕ → ℕ → ℕ) (k nprimes : ℕ) : ℕ → ℕ → ℕ → List ℕ
  | 0, _, _ => []
  | r + 1, i, todo =>
    S k i (todo / (nprimes - i)) ::
      drawPrimesAux S k nprimes r (i + 1)
        (todo - bitlen (S k i (todo / (nprimes - i))))

/-- The primes drawn in round `k`: `nprimes` draws starting from the bit
budget `bit_size + extraBits nprimes`. -/
def roundPrimes (S : ℕ → ℕ → ℕ → ℕ) (k nprimes bitSize : ℕ) : List ℕ :=
  drawPrimesAux S k nprimes nprimes 0 (bitSize + extraBits nprimes)

/-- The bit budget before the `i`-th draw, as the specification describes it:
start at `bit_size` plus the extra bits, and subtract each drawn prime's
actual bit length. -/
def specTodo (S : ℕ → ℕ → ℕ → ℕ) (k nprimes bitSize : ℕ) : ℕ → ℕ
  | 0 => bitSize + extraBits nprimes
  | i + 1 =>
    specTodo S k nprimes bitSize i -
      bitlen (S k i (specTodo S k nprimes bitSize i / (nprimes - i)))

/-- The `i`-th drawn prime, as the specification describes it: a draw with
`floor(todo / (nprimes - i))` requested bits. -/
def specPrime (S : ℕ → ℕ → ℕ → ℕ) (k nprimes bitSize i : ℕ) : ℕ :=
  S k i (specTodo S k nprimes bitSize i / (nprimes - i))

/-- Modelled from the spec: `compute_modulus` (src/algorithms/rsa.rs, outside
the given sources); spec section 4.2: the product of the primes, never
failing. -/
def computeModulus (primes : List ℕ) : ℕ := primes.prod

/-- The exponent base used by the private-exponent derivation, following the
spec's formula in section 4.2: the lcm of the `p_i - 1`. -/
def totLambda (primes : List ℕ) : ℕ :=
  primes.foldl (fun a p => Nat.lcm a (p - 1)) 1

/-- Modelled from the spec: `compute_private_exponent_euler_totient`
(src/algorithms/rsa.rs, outside the given sources); spec section 4.2: with
λ the fold of `lcm` over the `p_i − 1`, return `e⁻¹ mod λ`, failing when `e`
is not coprime to λ.  For λ = 0 coprimality forces `e = 1`, whose inverse is
taken to be 1. -/
def computePrivateExponentEulerTotient (primes : List ℕ) (e : ℕ) :
    Except Error ℕ :=
  if Nat.gcd e (totLambda primes) = 1 then
    Except.ok
      (if totLambda primes = 0 then 1
       else modInv (e % totLambda primes) (totLambda primes))
  else Except.error Error.InvalidExponent

/-- One round of `generate_multi_prime_key_with_exp`
(src/algorithms/generate.rs lines 64-110): draw the primes, restart on a
duplicate, restart when the modulus bit length misses `bit_size`, restart when
the private exponent has no inverse; otherwise succeed. -/
def generateRound (S : ℕ → ℕ → ℕ → ℕ) (k nprimes bitSize e : ℕ) :
    Option RsaPrivateKeyComponents :=
  let ps := roundPrimes S k nprimes bitSize
  if ps.Nodup then
    if bitlen (computeModulus ps) = bitSize then
      match computePrivateExponentEulerTotient ps e with
      | Except.ok d => some ⟨computeModulus ps, e, d, ps⟩
      | Except.error _ => none
    else none
  else none

/-- The retry loop of the generator, with explicit fuel: round `k`, then round
`k+1`, and so on.  The real loop is uncapped; every theorem about it is
phrased per round or for an arbitrary fuel. -/
def generateAux (S : ℕ → ℕ → ℕ → ℕ) (nprimes bitSize e : ℕ) :
    ℕ → ℕ → Option RsaPrivateKeyComponents
  | 0, _ => none
  | f + 1, k =>
    match generateRound S k nprimes bitSize e with
    | some c => some c
    | none => generateAux S nprimes bitSize e f (k + 1)

/-- A concrete prime candidate source used in closed statements: the first
draw of a round yields 3 and every later draw yields 5. -/
def sampleSource : ℕ → ℕ → ℕ → ℕ :=
  fun _ i _ => if i = 0 then 3 else 5

/-- The fuel-driven bit length agrees with the usual characterisation as soon
as the fuel dominates the argument. -/
lemma bitlenAux_le_iff : ∀ f n m : ℕ, n ≤ f → (bitlenAux f n ≤ m ↔ n < 2 ^ m) := by
  intro f
  induction f with
  | zero =>
    intro n m hn
    have h0 : n = 0 := Nat.le_zero.mp hn
    subst h0
    exact iff_of_true (Nat.zero_le m) (pow_pos (by norm_num) m)
  | succ f ih =>
    intro n m hn
    by_cases h0 : n = 0
    · subst h0
      rw [show bitlenAux (f + 1) 0 = 0 from by simp [bitlenAux]]
      exact iff_of_true (Nat.zero_le m) (pow_pos (by norm_num) m)
    · have hdiv : n / 2 ≤ f := by
        have : n / 2 < n := Nat.div_lt_self (Nat.pos_of_ne_zero h0) one_lt_two
        omega
      rw [show bitlenAux (f + 1) n = bitlenAux f (n / 2) + 1 from by
        simp [bitlenAux, h0]]
      cases m with
      | zero => rw [pow_zero]; omega
      | succ m =>
        rw [Nat.add_le_add_iff_right, ih (n / 2) m hdiv, pow_succ]
        exact Nat.div_lt_iff_lt_mul (by norm_num)

/-- The bound `bitlen n ≤ m` holds exactly when `n < 2 ^ m`. -/
lemma bitlen_le_iff (n m : ℕ) : bitlen n ≤ m ↔ n < 2 ^ m :=
  bitlenAux_le_iff n n m (le_refl n)

/-- The bound `m < bitlen n` holds exactly when `2 ^ m ≤ n`. -/
lemma bitlen_gt_iff (n m : ℕ) : m < bitlen n ↔ 2 ^ m ≤ n := by
  rw [← Nat.not_le, bitlen_le_iff, Nat.not_lt]

/-- Wrapping subtraction of one at precision `w` is ordinary subtraction for
values in range. -/
lemma wrap_sub_one (w p : ℕ) (h1 : 1 ≤ p) (h2 : p - 1 < 2 ^ w) :
    (p + (2 ^ w - 1)) % 2 ^ w = p - 1 := by
  have hw : 0 < 2 ^ w := pow_pos (by norm_num) w
  rw [show p + (2 ^ w - 1) = 2 ^ w + (p - 1) from by omega,
    Nat.add_mod_left, Nat.mod_eq_of_lt h2]

/-- When a modular inverse exists, `modInv` finds one. -/
lemma modInv_spec (a n : ℕ) (h : ∃ x, x < n ∧ a * x % n = 1) :
    a * modInv a n % n = 1 ∧ modInv a n < n := by
  obtain ⟨x, hx, hax⟩ := h
  have hmem : x ∈ (List.range n).filter fun y => a * y % n == 1 :=
    List.mem_filter.mpr ⟨List.mem_range.mpr hx, by simpa using hax⟩
  rcases hl : (List.range n).filter (fun y => a * y % n == 1) with _ | ⟨y, ys⟩
  · rw [hl] at hmem
    simp at hmem
  · have hy : y ∈ (List.range n).filter fun y => a * y % n == 1 := by
      rw [hl]; exact List.mem_cons_self y ys
    obtain ⟨hy1, hy2⟩ := List.mem_filter.mp hy
    have hmy : modInv a n = y := by unfold modInv; rw [hl]; rfl
    rw [hmy]
    exact ⟨by simpa using hy2, List.mem_range.mp hy1⟩

/-- Euler's theorem packaged as existence of a modular inverse. -/
lemma exists_mul_mod_one (a n : ℕ) (hn : 2 ≤ n) (h : Nat.gcd a n = 1) :
    ∃ x, x < n ∧ a * x % n = 1 := by
  have hcop : Nat.Coprime a n := h
  have he : a ^ Nat.totient n ≡ 1 [MOD n] := Nat.ModEq.pow_totient hcop
  have hph : 0 < Nat.totient n := Nat.totient_pos.mpr (by omega)
  refine ⟨a ^ (Nat.totient n - 1) % n, Nat.mod_lt _ (by omega), ?_⟩
  have h1 : a * (a ^ (Nat.totient n - 1) % n) ≡ a ^ Nat.totient n [MOD n] := by
    calc a * (a ^ (Nat.totient n - 1) % n)
        ≡ a * a ^ (Nat.totient n - 1) [MOD n] :=
          Nat.ModEq.mul_left a (Nat.mod_modEq _ n)
      _ = a ^ Nat.totient n := by rw [← pow_succ']; congr 1; omega
  have h2 : a * (a ^ (Nat.totient n - 1) % n) % n = 1 % n := h1.trans he
  rwa [Nat.mod_eq_of_lt (by omega : 1 < n)] at h2

/-- The search `modInv` is a genuine inverse whenever the arguments are coprime. -/
lemma modInv_works (a n : ℕ) (hn : 2 ≤ n) (h : Nat.gcd a n = 1) :
    a * modInv a n % n = 1 ∧ modInv a n < n :=
  modInv_spec a n (exists_mul_mod_one a n hn h)

/-- Folding wrapping multiplication computes the product modulo `W`. -/
lemma foldl_mul_mod (W : ℕ) (hW : 0 < W) :
    ∀ (ps : List ℕ) (m : ℕ), m < W →
      ps.foldl (fun a p => a * p % W) m = m * ps.prod % W := by
  intro ps
  induction ps with
  | nil => intro m hm; simp [Nat.mod_eq_of_lt hm]
  | cons p ps ih =>
    intro m hm
    rw [List.foldl_cons, ih (m * p % W) (Nat.mod_lt _ hW), List.prod_cons]
    have h1 : m * p % W * ps.prod ≡ m * p * ps.prod [MOD W] :=
      Nat.ModEq.mul_right ps.prod (Nat.mod_modEq (m * p) W)
    calc m * p % W * ps.prod % W = m * p * ps.prod % W := h1
      _ = m * (p * ps.prod) % W := by rw [mul_assoc]

/-- With no zero prime the product loop succeeds and computes the wrapping
product. -/
lemma productCheck_ok (prec : ℕ) :
    ∀ (ps : List ℕ) (m : ℕ), (∀ p ∈ ps, 1 ≤ p) →
      productCheck prec ps m =
        Except.ok (ps.foldl (fun a p => a * p % 2 ^ prec) m) := by
  intro ps
  induction ps with
  | nil => intro m _; simp [productCheck]
  | cons p ps ih =>
    intro m hall
    have hp : 1 ≤ p := hall p (List.mem_cons_self p ps)
    simp only [productCheck, List.foldl_cons]
    rw [if_neg (by omega : ¬ p < 1)]
    exact ih _ (fun q hq => hall q (List.mem_cons_of_mem p hq))

/-- Characterisation of the congruence loop when every prime is at least two
and in range for the widened precision. -/
lemma congruenceCheck_cases (de w : ℕ) :
    ∀ ps : List ℕ, (∀ p ∈ ps, 2 ≤ p ∧ p - 1 < 2 ^ w) →
      ((congruenceCheck de w ps = VResult.ok ↔ ∀ p ∈ ps, de % (p - 1) = 1) ∧
        ((∃ p ∈ ps, de % (p - 1) ≠ 1) →
          congruenceCheck de w ps = VResult.err Error.InvalidExponent)) := by
  intro ps
  induction ps with
  | nil =>
    intro _
    refine ⟨by simp [congruenceCheck], ?_⟩
    rintro ⟨p, hp, -⟩
    simp at hp
  | cons p ps ih =>
    intro hall
    obtain ⟨hp2, hpw⟩ := hall p (List.mem_cons_self p ps)
    have hsub : (p + (2 ^ w - 1)) % 2 ^ w = p - 1 := wrap_sub_one w p (by omega) hpw
    have hne : ¬ (p + (2 ^ w - 1)) % 2 ^ w = 0 := by omega
    have ihh := ih (fun q hq => hall q (List.mem_cons_of_mem p hq))
    by_cases hc : de % (p - 1) = 1
    · have hstep : congruenceCheck de w (p :: ps) = congruenceCheck de w ps := by
        simp only [congruenceCheck]
        rw [if_neg hne, hsub, if_pos hc]
      refine ⟨?_, ?_⟩
      · rw [hstep, ihh.1]
        constructor
        · intro h q hq
          rcases List.mem_cons.mp hq with rfl | hq'
          · exact hc
          · exact h q hq'
        · intro h q hq
          exact h q (List.mem_cons_of_mem p hq)
      · rw [hstep]
        rintro ⟨q, hq, hqn⟩
        rcases List.mem_cons.mp hq with rfl | hq'
        · exact absurd hc hqn
        · exact ihh.2 ⟨q, hq', hqn⟩
    · have hcc : congruenceCheck de w (p :: ps) = VResult.err Error.InvalidExponent := by
        simp only [congruenceCheck]
        rw [if_neg hne, hsub, if_neg hc]
      refine ⟨?_, fun _ => hcc⟩
      rw [hcc]
      constructor
      · intro h; cases h
      · intro h; exact absurd (h p (List.mem_cons_self p ps)) hc

/-- The operation `precompute` never changes any component of the key other than the
cache. -/
lemma precompute_fields (k : RsaPrivateKey) :
    (precompute k).2.prec = k.prec ∧ (precompute k).2.n = k.n ∧
      (precompute k).2.e = k.e ∧ (precompute k).2.d = k.d ∧
      (precompute k).2.primes = k.primes := by
  rcases k with ⟨prec, n, e, d, primes, pc⟩
  cases pc <;> rcases primes with _ | ⟨p, _ | ⟨q, rest⟩⟩ <;>
      (simp [precompute]; try (split_ifs <;> simp))

/-- A value whose natural precision fits converts exactly. -/
lemma toUintExact_ok {v nbits : ℕ} (h : innerPrec v ≤ nbits) :
    toUintExact v nbits = Outcome.ok v := by
  unfold toUintExact
  rw [if_neg (by omega)]

/-- A value occupying more precision than requested makes the conversion
panic. -/
lemma toUintExact_abort {v nbits : ℕ} (h : nbits < innerPrec v) :
    toUintExact v nbits = Outcome.abort := by
  unfold toUintExact
  rw [if_pos h]

/-- A successful private-exponent derivation yields an inverse of `e` modulo
the fold of the `lcm`s. -/
lemma euler_ok (ps : List ℕ) (e d : ℕ)
    (h : computePrivateExponentEulerTotient ps e = Except.ok d) :
    d * e ≡ 1 [MOD totLambda ps] ∧ (2 ≤ totLambda ps → d < totLambda ps) := by
  unfold computePrivateExponentEulerTotient at h
  by_cases hg : Nat.gcd e (totLambda ps) = 1
  · rw [if_pos hg] at h
    injection h with h'
    subst h'
    by_cases h0 : totLambda ps = 0
    · rw [if_pos h0]
      have he1 : e = 1 := by rw [h0, Nat.gcd_zero_right] at hg; exact hg
      subst he1
      exact ⟨by rfl, fun hh => by omega⟩
    · by_cases h1 : totLambda ps = 1
      · rw [if_neg h0]
        refine ⟨?_, fun hh => by omega⟩
        rw [h1]
        exact Nat.modEq_one
      · rw [if_neg h0]
        have h2 : 2 ≤ totLambda ps := by omega
        have hgm : Nat.gcd (e % totLambda ps) (totLambda ps) = 1 := by
          rw [← Nat.gcd_rec, Nat.gcd_comm]
          exact hg
        have hmw := modInv_works (e % totLambda ps) (totLambda ps) h2 hgm
        refine ⟨?_, fun _ => hmw.2⟩
        show modInv (e % totLambda ps) (totLambda ps) * e % totLambda ps =
          1 % totLambda ps
        have hstep :
            modInv (e % totLambda ps) (totLambda ps) * e ≡
              modInv (e % totLambda ps) (totLambda ps) * (e % totLambda ps)
                [MOD totLambda ps] :=
          Nat.ModEq.mul_left _ (Nat.mod_modEq e (totLambda ps)).symm
        calc modInv (e % totLambda ps) (totLambda ps) * e % totLambda ps
            = modInv (e % totLambda ps) (totLambda ps) * (e % totLambda ps) %
                totLambda ps := hstep
          _ = (e % totLambda ps) * modInv (e % totLambda ps) (totLambda ps) %
                totLambda ps := by rw [mul_comm]
          _ = 1 := hmw.1
          _ = 1 % totLambda ps := (Nat.mod_eq_of_lt (by omega)).symm
  · rw [if_neg hg] at h
    cases h

/-- The drawing loop realises the specification's draw sequence: starting at
budget `specTodo i`, the `r` draws are `specPrime i, …, specPrime (i+r-1)`. -/
lemma drawPrimesAux_spec (S : ℕ → ℕ → ℕ → ℕ) (k nprimes bitSize : ℕ) :
    ∀ r i : ℕ,
      drawPrimesAux S k nprimes r i (specTodo S k nprimes bitSize i) =
        (List.range r).map (fun j => specPrime S k nprimes bitSize (i + j)) := by
  intro r
  induction r with
  | zero => intro i; simp [drawPrimesAux]
  | succ r ih =>
    intro i
    rw [List.range_succ_eq_map, List.map_cons, List.map_map]
    simp only [drawPrimesAux]
    rw [show specTodo S k nprimes bitSize i -
          bitlen (S k i (specTodo S k nprimes bitSize i / (nprimes - i))) =
        specTodo S k nprimes bitSize (i + 1) from rfl]
    rw [ih (i + 1)]
    congr 1
    have hfun : ((fun j => specPrime S k nprimes bitSize (i + j)) ∘ Nat.succ) =
        fun j => specPrime S k nprimes bitSize (i + 1 + j) := by
      funext j
      show specPrime S k nprimes bitSize (i + (j + 1)) =
        specPrime S k nprimes bitSize (i + 1 + j)
      congr 1
      omega
    rw [hfun]

/-- The primes of a round are exactly the specification's draw sequence. -/
lemma roundPrimes_eq (S : ℕ → ℕ → ℕ → ℕ) (k nprimes bitSize : ℕ) :
    roundPrimes S k nprimes bitSize =
      (List.range nprimes).map (specPrime S k nprimes bitSize) := by
  have h := drawPrimesAux_spec S k nprimes bitSize nprimes 0
  rw [show specTodo S k nprimes bitSize 0 = bitSize + extraBits nprimes from rfl]
    at h
  unfold roundPrimes
  rw [h]
  congr 1
  funext j
  rw [Nat.zero_add]

/-- Success condition of the public-key well-formedness check. -/
lemma checkPublic_none_iff (n e m : ℕ) :
    checkPublicWithMaxSize n e m = none ↔
      (2 ≤ e ∧ e ≤ 2 ^ 33 - 1 ∧ e % 2 = 1 ∧ e < n ∧ n % 2 = 1 ∧
        bitlen n ≤ m) := by
  have p33 : (2 : ℕ) ^ 33 - 1 = 8589934591 := by norm_num
  have p64 : (2 : ℕ) ^ 64 = 18446744073709551616 := by norm_num
  unfold checkPublicWithMaxSize
  rw [p33, p64]
  split_ifs with h1 h2 h3 h4 h5 h6 <;> simp <;> omega

/-- C1: the code evaluated at the failing input.  A key whose prime list
contains the prime 1 is not rejected with `InvalidPrime`: `validate` panics at
the congruence step (the `NonZero` unwrap of `p - 1 = 0`), while a zero prime
is rejected with `InvalidPrime` before the product comparison — the guard
tests `prime < 1` rather than `prime ≤ 1`, contradicting the code's own
comment. -/
theorem validate_prime_one_failing_input :
    validate ⟨64, 15, 3, 3, [1, 15], none⟩ = VResult.abort ∧
      validate ⟨64, 15, 3, 3, [0, 15], none⟩ =
        VResult.err Error.InvalidPrime := by
  decide

/-- C2: counterexample.  A 64-bit-precision key whose primes multiply to
`2^64 + 9` passes `validate` because the wrapping product equals `n = 9`,
although the true product of the primes differs from `n`, refuting the claim
that `validate` returns ok only when the product of all primes equals `n`. -/
theorem validate_wrapped_product_counterexample :
    validate ⟨64, 9, 3, 2459565876494606883,
        [5, 3689348814741910325], none⟩ = VResult.ok ∧
      List.prod [5, 3689348814741910325] ≠ (9 : ℕ) := by
  decide

/-- C2 (amended): for every key with all primes greater than one, whose
components respect the representation invariants of constructed keys
(precision at least 64, `e` a `u64`, `d` and primes within precision),
`validate` returns ok exactly when the public checks pass, the product of all
primes reduced modulo `2^prec` (the wrapping product) equals `n`, and every
prime `p` satisfies `d·e ≡ 1 (mod p−1)` — with `d` and `e` multiplied exactly
thanks to the double-precision widening; otherwise it returns the first
violated invariant as a distinct error: the public check's error, else
`InvalidModulus`, else `InvalidExponent`, in that order. -/
theorem validate_characterization (k : RsaPrivateKey)
    (hall : ∀ p ∈ k.primes, 2 ≤ p)
    (hprec : 64 ≤ k.prec) (he : k.e < 2 ^ 64) (hd : k.d < 2 ^ k.prec)
    (hpb : ∀ p ∈ k.primes, p < 2 ^ k.prec) :
    (validate k = VResult.ok ↔
        (checkPublicWithMaxSize k.n k.e 4096 = none ∧
          k.primes.prod % 2 ^ k.prec = k.n ∧
          ∀ p ∈ k.primes, k.d * k.e % (p - 1) = 1)) ∧
      (∀ er, checkPublicWithMaxSize k.n k.e 4096 = some er →
        validate k = VResult.err er) ∧
      (checkPublicWithMaxSize k.n k.e 4096 = none →
        k.primes.prod % 2 ^ k.prec ≠ k.n →
        validate k = VResult.err Error.InvalidModulus) ∧
      (checkPublicWithMaxSize k.n k.e 4096 = none →
        k.primes.prod % 2 ^ k.prec = k.n →
        (∃ p ∈ k.primes, k.d * k.e % (p - 1) ≠ 1) →
        validate k = VResult.err Error.InvalidExponent) := by
  have hW : 0 < 2 ^ k.prec := pow_pos (by norm_num) k.prec
  have h1W : 1 < 2 ^ k.prec := by
    calc 1 < 2 ^ 64 := by norm_num
      _ ≤ 2 ^ k.prec := Nat.pow_le_pow_right (by norm_num) hprec
  have hone : 1 % 2 ^ k.prec = 1 := Nat.mod_eq_of_lt h1W
  have hde : k.d * k.e % 2 ^ (2 * k.prec) = k.d * k.e := by
    apply Nat.mod_eq_of_lt
    calc k.d * k.e < 2 ^ k.prec * 2 ^ 64 :=
          mul_lt_mul'' hd he (Nat.zero_le _) (Nat.zero_le _)
      _ ≤ 2 ^ (2 * k.prec) := by
          rw [← pow_add]
          exact Nat.pow_le_pow_right (by norm_num) (by omega)
  have hprodok : productCheck k.prec k.primes (1 % 2 ^ k.prec) =
      Except.ok (k.primes.prod % 2 ^ k.prec) := by
    rw [productCheck_ok k.prec k.primes _
      (fun p hp => by have := hall p hp; omega)]
    rw [hone, foldl_mul_mod _ hW _ 1 h1W, one_mul]
  have hcong := congruenceCheck_cases (k.d * k.e) (2 * k.prec) k.primes
    (fun p hp => ⟨hall p hp, by
      have h2 := hpb p hp
      have h3 : 2 ^ k.prec ≤ 2 ^ (2 * k.prec) :=
        Nat.pow_le_pow_right (by norm_num) (by omega)
      omega⟩)
  refine ⟨?_, ?_, ?_, ?_⟩
  · rcases hcp : checkPublicWithMaxSize k.n k.e 4096 with _ | er
    · simp only [validate, hcp, hprodok, hde]
      by_cases hm : k.primes.prod % 2 ^ k.prec = k.n
      · rw [if_pos hm, hcong.1]
        simp [hm]
      · rw [if_neg hm]
        simp [hm]
    · simp [validate, hcp]
  · intro er h
    simp [validate, h]
  · intro hcp hm
    simp only [validate, hcp, hprodok]
    rw [if_neg hm]
  · intro hcp hm hex
    simp only [validate, hcp, hprodok, hde]
    rw [if_pos hm]
    exact hcong.2 hex

/-- C2 witness: the amended characterisation applied to a concrete valid
key. -/
theorem validate_characterization_witness :
    validate ⟨64, 15, 3, 3, [3, 5], none⟩ = VResult.ok :=
  (validate_characterization ⟨64, 15, 3, 3, [3, 5], none⟩ (by decide)
    (by decide) (by decide) (by decide) (by decide)).1.mpr (by decide)

/-- C3: counterexample.  With two supplied primes `[1, 15]` the components are
accepted without validation, yet construction aborts: the
supposedly-discarded `precompute` call panics on the prime 1 (the `NonZero`
unwrap of `1 - 1 = 0`), so construction does fail solely because
precomputation failed. -/
theorem from_components_precompute_abort_counterexample :
    fromComponentsNew noRecover 64 15 3 3 [1, 15] = Outcome.abort ∧
      (precompute ⟨64, 15, 3, 3, [1, 15], none⟩).1 = VResult.abort := by
  decide

/-- C3 (amended): `from_components_new` proceeds by case on the prime list —
two or more primes are accepted as supplied and never yield a typed error
(each successful result carries exactly the supplied components); exactly one
prime fails with `NprimesTooSmall`; an empty list runs factor recovery,
appends the two recovered primes and mandatorily validates, propagating the
recovery or validation error; afterwards `precompute` runs and its typed
error is discarded (the final key differs from the built key only in the
cache) — but a panic inside `precompute` still aborts construction. -/
theorem from_components_new_behavior
    (recover : ℕ → ℕ → ℕ → Except Error (ℕ × ℕ)) (prec n e d : ℕ)
    (hn : n ≠ 0) :
    (∀ ps : List ℕ, 2 ≤ ps.length →
        (∀ er, fromComponentsNew recover prec n e d ps ≠ Outcome.err er) ∧
        (∀ k', fromComponentsNew recover prec n e d ps = Outcome.ok k' →
          k'.prec = prec ∧ k'.n = n ∧ k'.e = e ∧ k'.d = d ∧
            k'.primes = ps)) ∧
      (∀ p, fromComponentsNew recover prec n e d [p] =
        Outcome.err Error.NprimesTooSmall) ∧
      (∀ er, recover n e d = Except.error er →
        fromComponentsNew recover prec n e d [] = Outcome.err er) ∧
      (∀ p q, recover n e d = Except.ok (p, q) →
        innerPrec p ≤ prec → innerPrec q ≤ prec →
        ((∀ er, validate ⟨prec, n, e, d, [p, q], none⟩ = VResult.err er →
            fromComponentsNew recover prec n e d [] = Outcome.err er) ∧
          (validate ⟨prec, n, e, d, [p, q], none⟩ = VResult.ok →
            fromComponentsNew recover prec n e d [] =
              finishPrecompute ⟨prec, n, e, d, [p, q], none⟩))) ∧
      (∀ k k', finishPrecompute k = Outcome.ok k' →
        k'.prec = k.prec ∧ k'.n = k.n ∧ k'.e = k.e ∧ k'.d = k.d ∧
          k'.primes = k.primes) := by
  have hfin : ∀ k k', finishPrecompute k = Outcome.ok k' →
      k'.prec = k.prec ∧ k'.n = k.n ∧ k'.e = k.e ∧ k'.d = k.d ∧
        k'.primes = k.primes := by
    intro k k' h
    have hf := precompute_fields k
    unfold finishPrecompute at h
    rcases hp : precompute k with ⟨st, k2⟩
    rw [hp] at h hf
    cases st with
    | ok =>
      have h2 : k2 = k' := by simpa using h
      subst h2
      exact hf
    | err er =>
      have h2 : k2 = k' := by simpa using h
      subst h2
      exact hf
    | abort => simp at h
  refine ⟨?_, ?_, ?_, ?_, hfin⟩
  · intro ps hlen
    rcases ps with _ | ⟨a, _ | ⟨b, rest⟩⟩
    · simp at hlen
    · simp at hlen
    · have heq : fromComponentsNew recover prec n e d (a :: b :: rest) =
          finishPrecompute ⟨prec, n, e, d, a :: b :: rest, none⟩ := by
        simp [fromComponentsNew, hn]
      constructor
      · intro er
        rw [heq]
        unfold finishPrecompute
        rcases hp : precompute ⟨prec, n, e, d, a :: b :: rest, none⟩
          with ⟨st, k2⟩
        cases st <;> simp
      · intro k' hk
        rw [heq] at hk
        simpa using hfin _ _ hk
  · intro p
    simp [fromComponentsNew, hn]
  · intro er hrec
    simp [fromComponentsNew, hn, hrec]
  · intro p q hrec hp hq
    have hteP : toUintExact p prec = Outcome.ok p := toUintExact_ok hp
    have hteQ : toUintExact q prec = Outcome.ok q := toUintExact_ok hq
    constructor
    · intro er hv
      simp [fromComponentsNew, hn, hrec, hteP, hteQ, hv]
    · intro hv
      simp [fromComponentsNew, hn, hrec, hteP, hteQ, hv]

/-- C3 witness: the behaviour theorem applied at concrete inputs. -/
theorem from_components_new_behavior_witness :
    fromComponentsNew okRecover 64 15 3 3 [7] =
      Outcome.err Error.NprimesTooSmall :=
  (from_components_new_behavior okRecover 64 15 3 3 (by decide)).2.1 7

/-- C5: per-round behaviour of the generator.  The drawn primes realise the
specification's budget recursion (`specTodo`/`specPrime`: start at
`bit_size` plus the extra bits for seven or more primes, request
`floor(todo/(nprimes−i))` bits, subtract each prime's actual bit length);
each round draws exactly `nprimes` primes; a successful round yields
components whose modulus is the product of the drawn primes with bit length
`bit_size`, pairwise-distinct primes, the input exponent, and a private
exponent inverse to `e` modulo the lcm fold of the `p_i − 1`; a failed round
makes the loop retry with the next round. -/
theorem generate_loop_spec (S : ℕ → ℕ → ℕ → ℕ) (nprimes bitSize e : ℕ) :
    (∀ k, roundPrimes S k nprimes bitSize =
        (List.range nprimes).map (specPrime S k nprimes bitSize)) ∧
      (∀ k, (roundPrimes S k nprimes bitSize).length = nprimes) ∧
      (∀ k c, generateRound S k nprimes bitSize e = some c →
        c.primes = roundPrimes S k nprimes bitSize ∧
          c.n = c.primes.prod ∧ bitlen c.n = bitSize ∧ c.primes.Nodup ∧
          c.e = e ∧ c.d * e ≡ 1 [MOD totLambda c.primes]) ∧
      (∀ f k, generateRound S k nprimes bitSize e = none →
        generateAux S nprimes bitSize e (f + 1) k =
          generateAux S nprimes bitSize e f (k + 1)) ∧
      (∀ f k c, generateAux S nprimes bitSize e f k = some c →
        ∃ j, generateRound S j nprimes bitSize e = some c) := by
  refine ⟨fun k => roundPrimes_eq S k nprimes bitSize, ?_, ?_, ?_, ?_⟩
  · intro k
    rw [roundPrimes_eq]
    simp
  · intro k c hc
    simp only [generateRound] at hc
    by_cases h1 : (roundPrimes S k nprimes bitSize).Nodup
    · rw [if_pos h1] at hc
      by_cases h2 :
          bitlen (computeModulus (roundPrimes S k nprimes bitSize)) = bitSize
      · rw [if_pos h2] at hc
        rcases he : computePrivateExponentEulerTotient
            (roundPrimes S k nprimes bitSize) e with er | dd
        · rw [he] at hc
          simp at hc
        · rw [he] at hc
          have hc2 : (⟨computeModulus (roundPrimes S k nprimes bitSize), e, dd,
              roundPrimes S k nprimes bitSize⟩ : RsaPrivateKeyComponents) = c := by
            simpa using hc
          subst hc2
          exact ⟨rfl, rfl, h2, h1, rfl, (euler_ok _ _ _ he).1⟩
      · rw [if_neg h2] at hc
        simp at hc
    · rw [if_neg h1] at hc
      simp at hc
  · intro f k h
    simp [generateAux, h]
  · intro f
    induction f with
    | zero => intro k c hc; simp [generateAux] at hc
    | succ f ih =>
      intro k c hc
      simp only [generateAux] at hc
      rcases hr : generateRound S k nprimes bitSize e with _ | c2
      · rw [hr] at hc
        exact ih (k + 1) c hc
      · rw [hr] at hc
        have hc2 : c2 = c := by simpa using hc
        subst hc2
        exact ⟨k, hr⟩

/-- C5 witness: the round theorem applied to a concrete source. -/
theorem generate_loop_spec_witness :
    generateRound sampleSource 0 2 4 3 = some ⟨15, 3, 3, [3, 5]⟩ ∧
      (3 : ℕ) * 3 ≡ 1 [MOD totLambda [3, 5]] :=
  ⟨by decide,
    ((generate_loop_spec sampleSource 2 4 3).2.2.1 0 ⟨15, 3, 3, [3, 5]⟩
      (by decide)).2.2.2.2.2⟩

/-- C6: with no existing cache, `precompute` uses only the first two primes
`p` and `q` (the rest of the list is arbitrary and ignored): when `q` is
invertible modulo `p` it succeeds and stores `dp = d mod (p−1)`,
`dq = d mod (q−1)` and `qinv = q⁻¹ mod p`; when `q` has no inverse modulo `p`
it fails with `InvalidPrime` and leaves the key (in particular the absent
cache) unchanged. -/
theorem precompute_spec (k : RsaPrivateKey) (p q : ℕ) (rest : List ℕ)
    (hps : k.primes = p :: q :: rest) (hc : k.precomputed = none)
    (hp2 : 2 ≤ p) (hq2 : 2 ≤ q)
    (hpw : p < 2 ^ k.prec) (hqw : q < 2 ^ k.prec) :
    (Nat.gcd q p = 1 →
        precompute k =
          (VResult.ok,
            { k with precomputed := some ⟨k.d % (p - 1), k.d % (q - 1), modInv (q % p) p⟩ }) ∧
          q * modInv (q % p) p % p = 1 ∧ modInv (q % p) p < p) ∧
      (Nat.gcd q p ≠ 1 →
        precompute k = (VResult.err Error.InvalidPrime, k)) := by
  have hsubp : (p + (2 ^ k.prec - 1)) % 2 ^ k.prec = p - 1 :=
    wrap_sub_one _ p (by omega) (by omega)
  have hsubq : (q + (2 ^ k.prec - 1)) % 2 ^ k.prec = q - 1 :=
    wrap_sub_one _ q (by omega) (by omega)
  constructor
  · intro hg
    have hgm : Nat.gcd (q % p) p = 1 := by
      rw [← Nat.gcd_rec, Nat.gcd_comm]
      exact hg
    have hmw := modInv_works (q % p) p (by omega) hgm
    refine ⟨?_, ?_, hmw.2⟩
    · simp only [precompute, hc, hps, Option.isSome_none, Bool.false_eq_true,
        if_false, hsubp, hsubq]
      rw [if_neg (by omega : ¬ p - 1 = 0), if_neg (by omega : ¬ q - 1 = 0),
        if_pos hg]
    · calc q * modInv (q % p) p % p
          = q % p * modInv (q % p) p % p :=
            Nat.ModEq.mul_right _ (Nat.mod_modEq q p).symm
        _ = 1 := hmw.1
  · intro hg
    simp only [precompute, hc, hps, Option.isSome_none, Bool.false_eq_true,
      if_false, hsubp, hsubq]
    rw [if_neg (by omega : ¬ p - 1 = 0), if_neg (by omega : ¬ q - 1 = 0),
      if_neg hg]

/-- C6 witness: precomputation of a concrete two-prime key. -/
theorem precompute_spec_witness :
    precompute ⟨64, 15, 3, 7, [5, 3], none⟩ =
      (VResult.ok, ⟨64, 15, 3, 7, [5, 3], some ⟨3, 1, 2⟩⟩) ∧
      (3 : ℕ) * modInv (3 % 5) 5 % 5 = 1 := by
  have h := (precompute_spec ⟨64, 15, 3, 7, [5, 3], none⟩ 5 3 [] rfl rfl
    (by decide) (by decide) (by decide) (by decide)).1 (by decide)
  refine ⟨?_, h.2.1⟩
  rw [h.1]
  decide

/-- C7: `precompute` is idempotent — after any successful precomputation a
second invocation returns ok and leaves the whole key (in particular `dp`,
`dq`, `qinv`) unchanged, taking the no-op early return. -/
theorem precompute_idempotent (k k' : RsaPrivateKey)
    (h : precompute k = (VResult.ok, k')) :
    precompute k' = (VResult.ok, k') := by
  have hs : k'.precomputed.isSome = true := by
    obtain ⟨prec, n, e, d, primes, pc⟩ := k
    cases pc with
    | some v =>
      have hk : precompute ⟨prec, n, e, d, primes, some v⟩ =
          (VResult.ok, ⟨prec, n, e, d, primes, some v⟩) := by
        simp [precompute]
      rw [hk, Prod.mk.injEq] at h
      rw [← h.2]
      rfl
    | none =>
      rcases primes with _ | ⟨p, _ | ⟨q, rest⟩⟩
      · simp [precompute] at h
      · simp [precompute] at h
      · simp only [precompute, Option.isSome_none, Bool.false_eq_true,
          if_false] at h
        split_ifs at h with h1 h2 h3
        · rw [Prod.mk.injEq] at h
          exact absurd h.1 (by decide)
        · rw [Prod.mk.injEq] at h
          exact absurd h.1 (by decide)
        · rw [Prod.mk.injEq] at h
          rw [← h.2]
          rfl
        · rw [Prod.mk.injEq] at h
          exact absurd h.1 (by decide)
  unfold precompute
  rw [if_pos hs]

/-- C7 witness: idempotence after a concrete successful precomputation. -/
theorem precompute_idempotent_witness :
    precompute ⟨64, 15, 3, 7, [5, 3], some ⟨3, 1, 2⟩⟩ =
      (VResult.ok, ⟨64, 15, 3, 7, [5, 3], some ⟨3, 1, 2⟩⟩) :=
  precompute_idempotent ⟨64, 15, 3, 7, [5, 3], none⟩
    ⟨64, 15, 3, 7, [5, 3], some ⟨3, 1, 2⟩⟩ (by decide)

/-- C8: `RsaPublicKey::new` is `new_with_max_size` at 4096; the latter
returns a key (carrying exactly the given `n` and `e`) precisely when
`2 ≤ e ≤ 2^33 − 1`, `e` is odd, `e < n`, `n` is odd and
`bitlength(n) ≤ max_size`, and a modulus exceeding `max_size` bits is
rejected with `ModulusTooLarge`. -/
theorem public_key_new_spec (n e maxSize : ℕ) :
    (rsaPublicKeyNew n e = newWithMaxSize n e 4096) ∧
      ((∃ kk, newWithMaxSize n e maxSize = Except.ok kk) ↔
        (2 ≤ e ∧ e ≤ 2 ^ 33 - 1 ∧ e % 2 = 1 ∧ e < n ∧ n % 2 = 1 ∧
          bitlen n ≤ maxSize)) ∧
      (∀ kk, newWithMaxSize n e maxSize = Except.ok kk →
        kk.n = n ∧ kk.e = e) ∧
      (maxSize < bitlen n →
        newWithMaxSize n e maxSize = Except.error Error.ModulusTooLarge) := by
  refine ⟨rfl, ?_, ?_, ?_⟩
  · rw [← checkPublic_none_iff]
    constructor
    · rintro ⟨kk, hk⟩
      rcases hc : checkPublicWithMaxSize n e maxSize with _ | er
      · rfl
      · unfold newWithMaxSize at hk
        rw [hc] at hk
        simp at hk
    · intro hc
      unfold newWithMaxSize
      rw [hc]
      exact ⟨_, rfl⟩
  · intro kk hk
    unfold newWithMaxSize at hk
    rcases hc : checkPublicWithMaxSize n e maxSize with _ | er
    · rw [hc] at hk
      have h2 : (⟨toUintPrec n, n, e⟩ : RsaPublicKeyM) = kk := by simpa using hk
      rw [← h2]
      exact ⟨rfl, rfl⟩
    · rw [hc] at hk
      simp at hk
  · intro hbig
    unfold newWithMaxSize checkPublicWithMaxSize
    rw [if_pos hbig]

/-- C8 witness: a 4-bit modulus is accepted and a 4099-bit modulus is
rejected with `ModulusTooLarge`. -/
theorem public_key_new_spec_witness :
    (∃ kk, newWithMaxSize 15 3 4096 = Except.ok kk) ∧
      newWithMaxSize (2 ^ 4098 + 1) 65537 4096 =
        Except.error Error.ModulusTooLarge := by
  constructor
  · exact (public_key_new_spec 15 3 4096).2.1.mpr (by decide)
  · refine (public_key_new_spec (2 ^ 4098 + 1) 65537 4096).2.2.2 ?_
    rw [bitlen_gt_iff]
    calc (2 : ℕ) ^ 4096 ≤ 2 ^ 4098 :=
          Nat.pow_le_pow_right (by omega) (by omega)
      _ ≤ 2 ^ 4098 + 1 := Nat.le_add_right _ _

/-- C9: counterexample.  Malformed caller-supplied key material does not
always surface as a typed error: `from_components` with an oversized private
exponent `d = 2^64` against a 64-bit modulus aborts (the narrowing panic)
instead of returning a typed error. -/
theorem to_uint_exact_caller_abort_counterexample :
    fromComponents noRecover 9 3 (2 ^ 64) [3, 3] = Outcome.abort := by
  decide

/-- C9 (amended): narrowing a value to a precision smaller than the
(limb-quantised) precision it occupies aborts irrecoverably, while widening
to a larger or equal precision always succeeds and preserves the value; this
abort is reachable from malformed caller-supplied key material —
`from_components` aborts rather than returning a typed error when the
supplied `d` occupies more precision than the modulus. -/
theorem to_uint_exact_spec :
    (∀ v nbits : ℕ,
        (innerPrec v ≤ nbits → toUintExact v nbits = Outcome.ok v) ∧
        (nbits < innerPrec v → toUintExact v nbits = Outcome.abort)) ∧
      fromComponents noRecover 9 3 (2 ^ 64) [3, 3] = Outcome.abort :=
  ⟨fun _ _ => ⟨fun h => toUintExact_ok h, fun h => toUintExact_abort h⟩,
    by decide⟩

/-- C9 witness: a fitting value converts exactly and an oversized value
aborts. -/
theorem to_uint_exact_spec_witness :
    toUintExact 9 64 = Outcome.ok 9 ∧
      toUintExact (2 ^ 64) 64 = Outcome.abort :=
  ⟨(to_uint_exact_spec.1 9 64).1 (by decide),
    (to_uint_exact_spec.1 (2 ^ 64) 64).2 (by decide)⟩

/-- C10: whenever the supplied public exponent does not fit in 64 bits,
`from_components` returns `InvalidExponent` before touching `d` or the
primes, for every prime list — including lists with two or more primes. -/
theorem from_components_oversized_exponent
    (recover : ℕ → ℕ → ℕ → Except Error (ℕ × ℕ)) (n e d : ℕ)
    (primes : List ℕ) (h : 2 ^ 64 ≤ e) :
    fromComponents recover n e d primes =
      Outcome.err Error.InvalidExponent := by
  unfold fromComponents
  rw [if_pos h]

/-- C10 witness: the smallest over-wide exponent is rejected even with two
supplied primes and an oversized `d`. -/
theorem from_components_oversized_exponent_witness :
    fromComponents noRecover 15 (2 ^ 64) (2 ^ 64) [3, 5] =
      Outcome.err Error.InvalidExponent :=
  from_components_oversized_exponent noRecover 15 (2 ^ 64) (2 ^ 64) [3, 5]
    (le_refl _)

end RsaCore
